import Mathlib

/-!
Verification development for the encher-sceller auction-listing pipeline.

The Python sources are shallowly embedded: pure computations become Lean
functions over exact rationals (`ℚ` stands for Python floats; all float
operations exercised by the properties below are exact on the values
involved), dictionaries become association lists with the Python `dict`
operations (`pop` removes a key, `d[k] = v` overwrites it), and the
MongoDB / Qdrant collections touched by an endpoint become explicit state
threaded through the function.
-/

namespace EncherSceller

/-! ## 4.2 ELA detector — `backend_ai/tools/authenticityTool/ela_detector.py`

`ELADetector._build_suspicion_score` combines the three error metrics into a
suspicion score; `ELADetector.analyze` turns the score into a verdict using
the constructor cutoffs (defaults `suspicious_score = 0.4`,
`manipulated_score = 0.7`).  Python float literals `1e-6`, `5.0`, `0.02`,
`0.05`, `30.0`, `0.3`, `0.2`, `0.5` are the exact rationals written below. -/

/-- Embeds `ELADetector._build_suspicion_score` (ela_detector.py lines
126-177): `ratio_score = min(high_error_ratio * 5.0, 0.5)`; when
`mean_error > 0` add `max(min((max_error / (mean_error + 1e-6) - 1.0) / 30.0,
0.3), 0.0)`; when `mean_error < 5.0 and high_error_ratio > 0.02` add `0.2`;
finally `score = min(score, 1.0)`. -/
def build_suspicion_score (mean_error max_error high_error_ratio : ℚ) : ℚ :=
  let ratio_score := min (high_error_ratio * 5) (1/2)
  let score1 := ratio_score
  let score2 :=
    if 0 < mean_error then
      score1 + max (min ((max_error / (mean_error + 1/1000000) - 1) / 30) (3/10)) 0
    else score1
  let score3 :=
    if mean_error < 5 ∧ 1/50 < high_error_ratio then score2 + 1/5 else score2
  min score3 1

/-- Default `suspicious_score` cutoff of `ELADetector.__init__` (0.4). -/
def default_suspicious_score : ℚ := 2/5

/-- Default `manipulated_score` cutoff of `ELADetector.__init__` (0.7). -/
def default_manipulated_score : ℚ := 7/10

/-- Embeds the verdict assignment of `ELADetector.analyze` (ela_detector.py
lines 195-201): `likely_manipulated` when `score >= manipulated_score`, else
`suspicious` when `score >= suspicious_score`, else `clean`. -/
def ela_verdict (suspicious_cut manipulated_cut score : ℚ) : String :=
  if manipulated_cut ≤ score then "likely_manipulated"
  else if suspicious_cut ≤ score then "suspicious"
  else "clean"

/-! ## Price agent — `backend_ai/agents/recommandation_prix_agent.py`

`RecommandationPrixAgent.run` sends a prompt to Gemini, then post-processes
the response text: `_parse_json_response` tries a fenced ```json block, then
the raw text, then a brace-delimited fragment, each through `json.loads`;
when nothing is extracted `run` returns the fixed default price range.

The embedding leaves the external pieces as function parameters: `jsonLoads`
stands for `json.loads` (restricted to JSON-object results, `none` standing
for a parse failure), `fencedBlock` and `braceFragment` for the two regex
extractions, and `toFloat` for Python's `float(...)` coercion on JSON values
(`none` standing for a raised `TypeError`/`ValueError`). -/

/-- JSON values as `json.loads` produces them (numbers as exact rationals). -/
inductive JVal where
  | jnull : JVal
  | jbool : Bool → JVal
  | jnum : ℚ → JVal
  | jstr : String → JVal
  | jarr : List JVal → JVal
  | jobj : List (String × JVal) → JVal

/-- A parsed JSON object: association list of fields, as a Python dict. -/
abbrev JObj := List (String × JVal)

/-- First binding of a key in an association list (Python `d.get(k)` /
`d[k]` on a dict, whose keys are unique). -/
def lookupKey (k : String) (d : JObj) : Option JVal :=
  (d.find? (fun p => p.1 = k)).map (fun p => p.2)

/-- Python `d[k] = v` when `k` is already a key: overwrite in place. -/
def setKey (k : String) (v : JVal) (d : JObj) : JObj :=
  d.map (fun p => if p.1 = k then (k, v) else p)

/-- Embeds `RecommandationPrixAgent._parse_json_response` (lines 142-164):
try the fenced-code-block regex and `json.loads` on its group; then
`json.loads` on the whole text; then the brace-fragment regex and
`json.loads` on its match; `None` when all fail. -/
def parse_json_response (jsonLoads : String → Option JObj)
    (fencedBlock braceFragment : String → Option String)
    (text : String) : Option JObj :=
  match fencedBlock text >>= jsonLoads with
  | some o => some o
  | none =>
    match jsonLoads text with
    | some o => some o
    | none => braceFragment text >>= jsonLoads

/-- The fixed default returned by `RecommandationPrixAgent.run` when no JSON
could be parsed (lines 121-128). -/
def default_price_response : JObj :=
  [("low", .jnum 50), ("median", .jnum 100), ("high", .jnum 200),
   ("starting_price", .jnum 75),
   ("reasoning", .jstr "Impossible de parser la réponse Gemini. Valeurs par défaut appliquées.")]

/-- Python truthiness of the parse result: `None` and `{}` are falsy
(`if not parsed:` in `run`). -/
def parsedFalsy : Option JObj → Bool
  | none => true
  | some fields => fields.isEmpty

/-- One iteration of the numeric-coercion loop of `run` (lines 130-138): for
`key` in `("low","median","high","starting_price")`, a present non-null value
is coerced with `float(...)` (fallback `100.0` on failure), a missing or null
value is set to `100.0`. -/
def coerceNumericField (toFloat : JVal → Option ℚ) (fields : JObj)
    (key : String) : JObj :=
  match lookupKey key fields with
  | some .jnull => setKey key (.jnum 100) fields
  | some v =>
    match toFloat v with
    | some q => setKey key (.jnum q) fields
    | none => setKey key (.jnum 100) fields
  | none => fields ++ [(key, .jnum 100)]

/-- Embeds the post-LLM-response part of `RecommandationPrixAgent.run`
(lines 117-140): parse the text; when falsy return the fixed default;
otherwise coerce the four numeric fields. -/
def prix_run_from_response (jsonLoads : String → Option JObj)
    (fencedBlock braceFragment : String → Option String)
    (toFloat : JVal → Option ℚ) (text : String) : JObj :=
  let parsed := parse_json_response jsonLoads fencedBlock braceFragment text
  if parsedFalsy parsed then default_price_response
  else
    ["low", "median", "high", "starting_price"].foldl
      (coerceNumericField toFloat) (parsed.getD [])

/-! ## 4.1 Duplicate checker —
`backend_ai/tools/authenticityTool/duplicate_check.py`

The Qdrant collection becomes an explicit list of points threaded through the
operations.  Perceptual hashes (64-bit, `hash_size = 8`) are naturals; the
stored `phash` payload field (a hex string in the code) is modelled by the
hash value itself.  Qdrant's EUCLID score is the square root of the squared
Euclidean distance; `check_duplicate` squares the score right back
(`round(top.score ** 2)`), so the model carries the squared distance
exactly and never forms the square root. -/

/-- `VECTOR_SIZE = 64` (duplicate_check.py line 24). -/
def VECTOR_SIZE : Nat := 64

/-- Embeds `phash_to_vector` (lines 28-35): write the 64-bit hash in binary,
most significant bit first (`bin(...)` then `zfill(64)`), one 0.0/1.0
coordinate per bit. -/
def phash_to_vector (ph : Nat) : List ℚ :=
  (List.range VECTOR_SIZE).map
    (fun i => if ph.testBit (VECTOR_SIZE - 1 - i) then 1 else 0)

/-- Squared Euclidean distance between two vectors. -/
def sqDist (v w : List ℚ) : ℚ := (List.zipWith (fun a b => (a - b)^2) v w).sum

/-- Hamming distance between two 64-bit hashes: the number of bit positions
below 64 where they differ. -/
def hammingDist (h1 h2 : Nat) : Nat :=
  ((List.range VECTOR_SIZE).filter (fun i => h1.testBit i != h2.testBit i)).length

/-- Payload stored with a point: `{"filename": ..., "phash": str(ph)}`
updated with the caller's metadata (add_to_db lines 160-162). -/
structure QdrantPayload where
  filename : String
  phash : Nat
  metadata : List (String × String)
deriving DecidableEq

/-- A point of the `image_hashes` collection. -/
structure QdrantPoint where
  id : String
  vector : List ℚ
  payload : QdrantPayload
deriving DecidableEq

/-- The Qdrant collection state. -/
abbrev QdrantStore := List QdrantPoint

/-- Left fold keeping the stored point closest to the query vector (ties keep
the earlier point). -/
def nearestFrom (v : List ℚ) (best : QdrantPoint) :
    List QdrantPoint → QdrantPoint
  | [] => best
  | q :: rest =>
    nearestFrom v (if sqDist q.vector v < sqDist best.vector v then q else best)
      rest

/-- `client.query_points(..., limit=1)` (check_duplicate lines 105-109): the
nearest stored point under Euclidean distance — the square root is monotone,
so minimising the Euclidean score is minimising the squared distance. -/
def nearestPoint (store : QdrantStore) (v : List ℚ) : Option QdrantPoint :=
  match store with
  | [] => none
  | p :: rest => some (nearestFrom v p rest)

/-- Default `threshold` of `DuplicateCheckerQdrant.__init__` (line 51). -/
def default_threshold : ℤ := 10

/-- Embeds `DuplicateCheckerQdrant.check_duplicate` (lines 95-127) applied to
the hash `ph` that `_compute_phash` computed from the image bytes: find the
nearest stored point; `hamming_approx = round(score ** 2)` — the Euclidean
score squared is exactly the squared distance; report a duplicate (with the
matching payload) when `hamming_approx <= threshold`.  The body only reads
the collection, so the store comes back unchanged. -/
def check_duplicate (threshold : ℤ) (store : QdrantStore) (ph : Nat) :
    (Bool × Option QdrantPayload) × QdrantStore :=
  let v := phash_to_vector ph
  match nearestPoint store v with
  | none => ((false, none), store)
  | some top =>
    let hamming_approx : ℤ := round (sqDist top.vector v)
    if hamming_approx ≤ threshold then ((true, some top.payload), store)
    else ((false, none), store)

/-- Embeds `DuplicateCheckerQdrant.add_to_db` (lines 129-175): when the
filename is already stored (the `scroll` filename filter finds a point) skip
the insert and return that point's id; otherwise upsert a new point whose
vector embeds the hash and whose payload carries filename, hash and
metadata.  `newId` stands for the fresh `uuid4()`. -/
def add_to_db (store : QdrantStore) (filename : String) (ph : Nat)
    (metadata : List (String × String)) (newId : String) :
    String × QdrantStore :=
  match store.find? (fun p => p.payload.filename = filename) with
  | some p => (p.id, store)
  | none =>
    (newId,
     store ++ [{ id := newId, vector := phash_to_vector ph,
                 payload := { filename := filename, phash := ph,
                              metadata := metadata } }])

/-- The module's usage flow (duplicate_check.py lines 196-206): run
`check_duplicate` and, when no duplicate was reported, call `add_to_db` on
the image. -/
def check_then_add (threshold : ℤ) (store : QdrantStore) (filename : String)
    (ph : Nat) (metadata : List (String × String)) (newId : String) :
    QdrantStore :=
  let r := check_duplicate threshold store ph
  if r.1.1 then r.2 else (add_to_db r.2 filename ph metadata newId).2

/-- Stores reachable through `add_to_db`: every point's vector is the
embedding of its stored 64-bit hash. -/
def WFStore (store : QdrantStore) : Prop :=
  ∀ p ∈ store, p.payload.phash < 2^64 ∧ p.vector = phash_to_vector p.payload.phash

/-! ## Sealed-bid placement — `backend_api/routers/upload_router.py`
`place_bid` (lines 346-376)

The listings and bids collections become explicit lists.  Listings are
reduced to the fields `place_bid` reads or writes (`listing_id`, `status`,
`starting_price`, `participants_count`); `listing_id` is the unique key
(a uuid4 assigned at upload).  Amounts are exact rationals.  HTTP errors
are reported by status code (the French detail strings are not modelled). -/

/-- A bid document as `place_bid` inserts it (lines 365-370). -/
structure BidDoc where
  listing_id : String
  user_id : String
  amount : ℚ
  created_at : Nat
deriving DecidableEq

/-- The slice of a listing document that `place_bid` touches. -/
structure BidListing where
  listing_id : String
  status : String
  starting_price : Option ℚ
  participants_count : Nat
deriving DecidableEq

/-- The two collections `place_bid` works over. -/
structure BidState where
  listings : List BidListing
  bids : List BidDoc
deriving DecidableEq

/-- Outcome of a bid request: HTTP error status, or acceptance carrying the
`participants` count of the response body. -/
inductive BidResult where
  | ok : Nat → BidResult
  | httpError : Nat → BidResult
deriving DecidableEq

/-- `bids_coll.distinct("user_id", {"listing_id": listing_id})` (line 371):
the distinct bidder user_ids holding bids on the listing. -/
def distinct_bidders (bids : List BidDoc) (lid : String) : List String :=
  ((bids.filter (fun b => b.listing_id = lid)).map (fun b => b.user_id)).dedup

/-- MongoDB `update_one`: rewrite the first matching document only. -/
def updateFirst {α : Type} (p : α → Bool) (g : α → α) : List α → List α
  | [] => []
  | x :: xs => if p x then g x :: xs else x :: updateFirst p g xs

/-- Embeds `place_bid` (upload_router.py lines 346-376).  `amount?` is the
request body's `amount`: `none` when missing or not a number.  Reject 400
when the amount is missing/non-positive; 404 when no listing with this id is
in status AUCTION_ACTIVE; 400 when the amount is below
`listing.get("starting_price") or 0`; otherwise insert the sealed bid,
recompute the distinct-bidder count and store it on the listing. -/
def place_bid (st : BidState) (listing_id user_id : String)
    (amount? : Option ℚ) (now : Nat) : BidResult × BidState :=
  match amount? with
  | none => (.httpError 400, st)
  | some amount =>
    if amount ≤ 0 then (.httpError 400, st)
    else
      match st.listings.find?
          (fun l => l.listing_id = listing_id ∧ l.status = "AUCTION_ACTIVE") with
      | none => (.httpError 404, st)
      | some listing =>
        let min_price := listing.starting_price.getD 0
        if amount < min_price then (.httpError 400, st)
        else
          let bids' := st.bids ++
            [{ listing_id := listing_id, user_id := user_id,
               amount := amount, created_at := now }]
          let n := (distinct_bidders bids' listing_id).length
          (.ok n,
           { listings := updateFirst (fun l => l.listing_id = listing_id)
               (fun l => { l with participants_count := n }) st.listings,
             bids := bids' })

/-! ## Pipeline endpoints — `backend_api/routers/upload_router.py`

The four seller pipeline endpoints each `$set` a fixed `pipeline_phase` and
`status` on the listing (together with result fields not modelled here);
none of them reads the current phase first.  A fresh listing starts at the
`ListingCreate` defaults `pipeline_phase = 1`, `status = "UPLOADED"`
(listing_models.py lines 23-24). -/

/-- The `pipeline_phase`/`status` slice of a listing document. -/
structure PipelineState where
  pipeline_phase : Nat
  status : String
deriving DecidableEq

/-- `ListingCreate` defaults: a listing right after upload. -/
def initial_pipeline : PipelineState :=
  { pipeline_phase := 1, status := "UPLOADED" }

/-- The four pipeline endpoints. -/
inductive PipelineEndpoint where
  | analyze : PipelineEndpoint
  | estimate : PipelineEndpoint
  | generate : PipelineEndpoint
  | deploy : PipelineEndpoint
deriving DecidableEq

/-- The `$set` of each endpoint on `pipeline_phase`/`status`
(upload_router.py lines 195-203, 286-295, 310-319, 330-340): the new value
is fixed, whatever the current state. -/
def apply_endpoint : PipelineEndpoint → PipelineState → PipelineState
  | .analyze, _ => { pipeline_phase := 2, status := "AUTHENTICATED" }
  | .estimate, _ => { pipeline_phase := 3, status := "PRICED" }
  | .generate, _ => { pipeline_phase := 4, status := "POSTED" }
  | .deploy, _ => { pipeline_phase := 5, status := "AUCTION_ACTIVE" }

/-- Run a sequence of pipeline endpoint calls on a listing. -/
def run_pipeline (calls : List PipelineEndpoint) (st : PipelineState) :
    PipelineState :=
  calls.foldl (fun s e => apply_endpoint e s) st

/-- The states a listing passes through under a call sequence (initial state
included). -/
def pipeline_trace (calls : List PipelineEndpoint) (st : PipelineState) :
    List PipelineState :=
  calls.scanl (fun s e => apply_endpoint e s) st

/-- The documented call order analyze → estimate → generate → deploy. -/
def canonical_order : List PipelineEndpoint :=
  [.analyze, .estimate, .generate, .deploy]

/-! ## Listing documents and read endpoints —
`backend_api/services/listing_service.py` and the listing read routes

Listing documents become association lists with Python-dict semantics:
`pop` removes a key, `d[k] = v` overwrites it in place (or appends a new
key), keys are unique in every reachable document.  Image binary payloads
(`data`, raw bytes capped at 10 MiB by `upload_images`) are one of the
value shapes. -/

/-- Values a listing document stores. -/
inductive BVal where
  | vnull : BVal
  | vbool : Bool → BVal
  | vnum : ℚ → BVal
  | vstr : String → BVal
  | vbytes : List Nat → BVal
  | vdoc : List (String × BVal) → BVal
  | varr : List BVal → BVal

/-- A document: association list of fields. -/
abbrev Doc := List (String × BVal)

/-- Whether the key is present (`k in d`). -/
def hasKey (k : String) (d : Doc) : Bool :=
  d.any (fun p => p.1 = k)

/-- `d.get(k)`: the value under the key, if present. -/
def getKey (k : String) (d : Doc) : Option BVal :=
  (d.find? (fun p => p.1 = k)).map (fun p => p.2)

/-- `d.pop(k, None)`: remove the key. -/
def popKey (k : String) (d : Doc) : Doc :=
  d.filter (fun p => ¬ p.1 = k)

/-- `d[k] = v`: overwrite in place when present, append when absent. -/
def setKeyD (k : String) (v : BVal) (d : Doc) : Doc :=
  if hasKey k d then d.map (fun p => if p.1 = k then (k, v) else p)
  else d ++ [(k, v)]

/-- A sequence of `pop` calls. -/
def popKeys (ks : List String) (d : Doc) : Doc :=
  ks.foldl (fun acc k => popKey k acc) d

/-- One image record inside `_strip_image_data`'s loop: dict records lose
their `data` key, anything else is left alone (the `isinstance` guard). -/
def strip_image_record : BVal → BVal
  | .vdoc fields => .vdoc (popKey "data" fields)
  | v => v

/-- Embeds `_strip_image_data` (listing_service.py lines 45-51): pop `data`
from every image dict under `images`.  A missing or non-array `images`
leaves the document unchanged (`doc.get("images") or []`; reachable
documents store `images` as an array, see `build_listing_document`). -/
def strip_image_data (d : Doc) : Doc :=
  match getKey "images" d with
  | some (.varr imgs) => setKeyD "images" (.varr (imgs.map strip_image_record)) d
  | _ => d

/-- Embeds `_normalize_listing_images` (lines 40-42, also inlined in
`get_listing_by_id`): a legacy single `image` becomes a one-element
`images` array. -/
def normalize_listing_images (d : Doc) : Doc :=
  if hasKey "image" d && ! hasKey "images" d then
    match getKey "image" d with
    | some v => popKey "image" d ++ [("images", .varr [v])]
    | none => d
  else d

/-- Embeds `get_listing_by_id` (listing_service.py lines 53-62) applied to a
found document: pop `_id`, normalize the images key, and (with the default
`strip_image_data=True` that every caller uses) strip the binary
payloads. -/
def get_listing_by_id_view (strip : Bool) (d : Doc) : Doc :=
  let d1 := popKey "_id" d
  let d2 := normalize_listing_images d1
  if strip then strip_image_data d2 else d2

/-- The keys the buyer branch of `listings_router.get_listing`
(lines 33-38) pops. -/
def buyer_detail_pops : List String :=
  ["price_estimation", "ai_analysis", "seller_id", "generated_post",
   "blockchain"]

/-- Buyer view of GET /api/listings/{id} (listings_router.py lines 27-39). -/
def get_listing_buyer_view (d : Doc) : Doc :=
  popKeys buyer_detail_pops (get_listing_by_id_view true d)

/-- Buyer view of GET /api/listing/{id} (upload_router.py `fetch_listing`,
lines 105-123): the same pops plus `pipeline_phase`. -/
def fetch_listing_buyer_view (d : Doc) : Doc :=
  popKeys (buyer_detail_pops ++ ["pipeline_phase"])
    (get_listing_by_id_view true d)

/-- The Mongo filter `{"status": "AUCTION_ACTIVE"}`. -/
def statusActive (d : Doc) : Bool :=
  match getKey "status" d with
  | some (.vstr s) => s = "AUCTION_ACTIVE"
  | _ => false

/-- Embeds `get_listings_for_buyer` (listing_service.py lines 65-80): every
AUCTION_ACTIVE document, `_id` popped, images normalized, the six sensitive
keys popped, binary payloads stripped. -/
def get_listings_for_buyer (docs : List Doc) : List Doc :=
  (docs.filter statusActive).map
    (fun d => strip_image_data
      (popKeys (buyer_detail_pops ++ ["pipeline_phase"])
        (normalize_listing_images (popKey "_id" d))))

/-- The Mongo filter `{"seller_id": seller_id}`. -/
def sellerMatches (seller : String) (d : Doc) : Bool :=
  match getKey "seller_id" d with
  | some (.vstr s) => s = seller
  | _ => false

/-- Embeds `get_listings_by_seller` (listing_service.py lines 83-92): the
seller's documents, `_id` popped, images normalized, binary payloads
stripped.  The `.sort("created_at", -1)` reordering is not modelled: it
permutes the result and changes no document. -/
def get_listings_by_seller (docs : List Doc) (seller : String) : List Doc :=
  (docs.filter (sellerMatches seller)).map
    (fun d => strip_image_data (normalize_listing_images (popKey "_id" d)))

/-- No image record of the document carries the inline binary payload: every
dict entry of its `images` array lacks the `data` key. -/
def no_image_data (d : Doc) : Prop :=
  ∀ imgs, getKey "images" d = some (.varr imgs) →
    ∀ img ∈ imgs, ∀ fields, img = .vdoc fields → hasKey "data" fields = false

/-! ## Theorems -/

/-! ### Distance and nearest-neighbour lemmas for the duplicate checker -/

theorem sqDist_cons (a b : ℚ) (v w : List ℚ) :
    sqDist (a :: v) (b :: w) = (a - b)^2 + sqDist v w := rfl

theorem sqDist_nonneg (v w : List ℚ) : 0 ≤ sqDist v w := by
  induction v generalizing w with
  | nil => simp [sqDist]
  | cons a t ih =>
    cases w with
    | nil => simp [sqDist]
    | cons b u => rw [sqDist_cons]; exact add_nonneg (sq_nonneg _) (ih u)

theorem sqDist_self (v : List ℚ) : sqDist v v = 0 := by
  unfold sqDist
  rw [List.zipWith_same]
  simp

theorem eq_of_sqDist_eq_zero {v w : List ℚ} (hlen : v.length = w.length)
    (h : sqDist v w = 0) : v = w := by
  induction v generalizing w with
  | nil =>
    cases w with
    | nil => rfl
    | cons b u => simp at hlen
  | cons a t ih =>
    cases w with
    | nil => simp at hlen
    | cons b u =>
      rw [sqDist_cons] at h
      have h1 : (0:ℚ) ≤ (a - b)^2 := sq_nonneg _
      have h2 : 0 ≤ sqDist t u := sqDist_nonneg t u
      have hab : (a - b)^2 = 0 := by linarith
      have htu : sqDist t u = 0 := by linarith
      have hab' : a - b = 0 := sq_eq_zero_iff.mp hab
      simp only [List.length_cons, Nat.add_right_cancel_iff] at hlen
      rw [ih hlen htu]
      have : a = b := by linarith
      rw [this]

theorem phash_to_vector_length (h : Nat) :
    (phash_to_vector h).length = VECTOR_SIZE := by
  simp [phash_to_vector]

theorem sum_sq_indicator (f g : Nat → Bool) (l : List Nat) :
    (List.zipWith (fun a b => (a - b)^2)
        (l.map fun i => if f i then (1:ℚ) else 0)
        (l.map fun i => if g i then (1:ℚ) else 0)).sum
      = (l.countP (fun i => f i != g i) : ℚ) := by
  induction l with
  | nil => simp
  | cons a t ih =>
    rw [List.map_cons, List.map_cons, List.zipWith_cons_cons, List.sum_cons,
      ih, List.countP_cons]
    push_cast
    by_cases hf : f a <;> by_cases hg : g a <;> simp [hf, hg] <;> ring

theorem sqDist_phash_eq_hamming (h1 h2 : Nat) :
    sqDist (phash_to_vector h1) (phash_to_vector h2) =
      (hammingDist h1 h2 : ℚ) := by
  unfold sqDist phash_to_vector hammingDist
  rw [sum_sq_indicator]
  norm_cast
  rw [← List.countP_eq_length_filter]
  have hrev : (List.range VECTOR_SIZE).map (fun i => VECTOR_SIZE - 1 - i) =
      (List.range VECTOR_SIZE).reverse := by decide
  have hmap := List.countP_map (fun i => h1.testBit i != h2.testBit i)
    (fun i => VECTOR_SIZE - 1 - i) (List.range VECTOR_SIZE)
  rw [hrev, List.countP_reverse] at hmap
  exact hmap.symm

theorem hammingDist_self (h : Nat) : hammingDist h h = 0 := by
  simp [hammingDist]

theorem phash_to_vector_inj {h1 h2 : Nat} (hb1 : h1 < 2^64) (hb2 : h2 < 2^64)
    (h : phash_to_vector h1 = phash_to_vector h2) : h1 = h2 := by
  unfold phash_to_vector at h
  rw [List.map_eq_map_iff] at h
  apply Nat.eq_of_testBit_eq
  intro j
  by_cases hj : j < 64
  · have hmem : VECTOR_SIZE - 1 - j ∈ List.range VECTOR_SIZE := by
      unfold VECTOR_SIZE
      simp only [List.mem_range]
      omega
    have hidx : VECTOR_SIZE - 1 - (VECTOR_SIZE - 1 - j) = j := by
      unfold VECTOR_SIZE
      omega
    have hbit := h _ hmem
    rw [hidx] at hbit
    by_cases e1 : h1.testBit j <;> by_cases e2 : h2.testBit j <;>
      simp [e1, e2] at hbit ⊢
  · have h64 : (64:Nat) ≤ j := le_of_not_lt hj
    have e1 : h1.testBit j = false :=
      Nat.testBit_lt_two_pow
        (lt_of_lt_of_le hb1 (Nat.pow_le_pow_right (by norm_num) h64))
    have e2 : h2.testBit j = false :=
      Nat.testBit_lt_two_pow
        (lt_of_lt_of_le hb2 (Nat.pow_le_pow_right (by norm_num) h64))
    rw [e1, e2]

theorem nearestFrom_mem (v : List ℚ) (b : QdrantPoint) (l : List QdrantPoint) :
    nearestFrom v b l = b ∨ nearestFrom v b l ∈ l := by
  induction l generalizing b with
  | nil => left; rfl
  | cons q t ih =>
    unfold nearestFrom
    rcases ih (if sqDist q.vector v < sqDist b.vector v then q else b) with h | h
    · by_cases hc : sqDist q.vector v < sqDist b.vector v
      · right; rw [h, if_pos hc]; exact List.mem_cons_self _ _
      · left; rw [h, if_neg hc]
    · right; exact List.mem_cons_of_mem _ h

theorem nearestFrom_le_best (v : List ℚ) (b : QdrantPoint)
    (l : List QdrantPoint) :
    sqDist (nearestFrom v b l).vector v ≤ sqDist b.vector v := by
  induction l generalizing b with
  | nil => exact le_rfl
  | cons q t ih =>
    unfold nearestFrom
    by_cases hc : sqDist q.vector v < sqDist b.vector v
    · rw [if_pos hc]; exact le_trans (ih q) (le_of_lt hc)
    · rw [if_neg hc]; exact ih b

theorem nearestFrom_le_mem (v : List ℚ) (b : QdrantPoint)
    (l : List QdrantPoint) :
    ∀ q ∈ l, sqDist (nearestFrom v b l).vector v ≤ sqDist q.vector v := by
  induction l generalizing b with
  | nil => intro q hq; cases hq
  | cons r t ih =>
    intro q hq
    rcases List.mem_cons.mp hq with rfl | hq'
    · unfold nearestFrom
      by_cases hc : sqDist q.vector v < sqDist b.vector v
      · rw [if_pos hc]; exact nearestFrom_le_best v q t
      · rw [if_neg hc]
        exact le_trans (nearestFrom_le_best v b t) (le_of_not_lt hc)
    · unfold nearestFrom
      exact ih _ q hq'

theorem nearestPoint_spec {store : QdrantStore} {v : List ℚ} {p : QdrantPoint}
    (h : nearestPoint store v = some p) :
    p ∈ store ∧ ∀ q ∈ store, sqDist p.vector v ≤ sqDist q.vector v := by
  cases store with
  | nil => cases h
  | cons r t =>
    unfold nearestPoint at h
    injection h with h
    subst h
    constructor
    · rcases nearestFrom_mem v r t with h | h
      · rw [h]; exact List.mem_cons_self _ _
      · exact List.mem_cons_of_mem _ h
    · intro q hq
      rcases List.mem_cons.mp hq with rfl | hq'
      · exact nearestFrom_le_best v q t
      · exact nearestFrom_le_mem v r t q hq'

theorem nearestPoint_of_mem {store : QdrantStore} {v : List ℚ}
    {p : QdrantPoint} (hp : p ∈ store) :
    ∃ t, nearestPoint store v = some t := by
  cases store with
  | nil => cases hp
  | cons r u => exact ⟨_, rfl⟩

theorem check_duplicate_store_eq (threshold : ℤ) (store : QdrantStore)
    (ph : Nat) : (check_duplicate threshold store ph).2 = store := by
  unfold check_duplicate
  cases hnp : nearestPoint store (phash_to_vector ph) with
  | none => simp only [hnp]
  | some top =>
    simp only [hnp]
    split_ifs <;> rfl

theorem WFStore_append {store : QdrantStore} {p : QdrantPoint}
    (hwf : WFStore store) (hb : p.payload.phash < 2^64)
    (hv : p.vector = phash_to_vector p.payload.phash) :
    WFStore (store ++ [p]) := by
  intro q hq
  rcases List.mem_append.mp hq with h | h
  · exact hwf q h
  · rcases List.mem_singleton.mp h with rfl
    exact ⟨hb, hv⟩

/-- C3: when no JSON object can be extracted from the model response text —
the fenced-block extraction, the raw text, and the brace-fragment extraction
all yield nothing through `json.loads` — `RecommandationPrixAgent.run`
returns the fixed default price range low=50, median=100, high=200,
starting_price=75. -/
theorem prix_run_defaults_on_unparseable (jsonLoads : String → Option JObj)
    (fencedBlock braceFragment : String → Option String)
    (toFloat : JVal → Option ℚ) (text : String)
    (h1 : fencedBlock text >>= jsonLoads = none)
    (h2 : jsonLoads text = none)
    (h3 : braceFragment text >>= jsonLoads = none) :
    prix_run_from_response jsonLoads fencedBlock braceFragment toFloat text =
      default_price_response := by
  unfold prix_run_from_response parse_json_response
  rw [h1, h2, h3]
  rfl

/-- Witness for C3 at concrete extraction functions that all fail on the
concrete text. -/
theorem prix_run_defaults_on_unparseable_witness :
    prix_run_from_response (fun _ => none) (fun _ => none) (fun _ => none)
      (fun _ => none) "no json here" = default_price_response :=
  prix_run_defaults_on_unparseable (fun _ => none) (fun _ => none)
    (fun _ => none) (fun _ => none) "no json here" rfl rfl rfl

/-- C8: for non-negative error metrics (with the high-error pixel share at
most 1) the combined ELA suspicion score lies in [0, 1], and the verdict
`ELADetector.analyze` assigns from it is likely_manipulated exactly when the
score is at least 0.7, suspicious exactly when the score is in [0.4, 0.7),
and clean exactly when it is below 0.4. -/
theorem ela_score_bounded_with_verdict_tiers
    (mean_error max_error high_error_ratio : ℚ)
    (hme : 0 ≤ mean_error) (hmx : 0 ≤ max_error)
    (hhr : 0 ≤ high_error_ratio) (hhr1 : high_error_ratio ≤ 1) :
    (0 ≤ build_suspicion_score mean_error max_error high_error_ratio ∧
      build_suspicion_score mean_error max_error high_error_ratio ≤ 1) ∧
    (ela_verdict default_suspicious_score default_manipulated_score
        (build_suspicion_score mean_error max_error high_error_ratio) =
        "likely_manipulated" ↔
      7/10 ≤ build_suspicion_score mean_error max_error high_error_ratio) ∧
    (ela_verdict default_suspicious_score default_manipulated_score
        (build_suspicion_score mean_error max_error high_error_ratio) =
        "suspicious" ↔
      2/5 ≤ build_suspicion_score mean_error max_error high_error_ratio ∧
        build_suspicion_score mean_error max_error high_error_ratio < 7/10) ∧
    (ela_verdict default_suspicious_score default_manipulated_score
        (build_suspicion_score mean_error max_error high_error_ratio) =
        "clean" ↔
      build_suspicion_score mean_error max_error high_error_ratio < 2/5) := by
  have hb : 0 ≤ build_suspicion_score mean_error max_error high_error_ratio ∧
      build_suspicion_score mean_error max_error high_error_ratio ≤ 1 := by
    constructor
    · unfold build_suspicion_score
      have a1 : (0:ℚ) ≤ min (high_error_ratio * 5) (1/2) :=
        le_min (by positivity) (by norm_num)
      have a3 : (0:ℚ) ≤ max (min ((max_error / (mean_error + 1/1000000) - 1) / 30)
          (3/10)) 0 := le_max_right _ _
      split_ifs <;> apply le_min _ zero_le_one <;> linarith
    · exact min_le_right _ _
  refine ⟨hb, ?_, ?_, ?_⟩ <;>
    unfold ela_verdict default_suspicious_score default_manipulated_score <;>
    split_ifs with g1 g2 <;> simp_all <;> linarith

/-- Witness for C8 at mean_error = 1, max_error = 2, high_error_ratio =
1/100. -/
theorem ela_score_bounded_with_verdict_tiers_witness :
    0 ≤ build_suspicion_score 1 2 (1/100) ∧
      build_suspicion_score 1 2 (1/100) ≤ 1 :=
  (ela_score_bounded_with_verdict_tiers 1 2 (1/100) (by norm_num)
    (by norm_num) (by norm_num) (by norm_num)).1

/-- C9: with mean_error > 0 and high_error_ratio fixed, the ELA suspicion
score is non-decreasing in max_error. -/
theorem ela_score_monotone_in_max_error
    (mean_error m1 m2 high_error_ratio : ℚ)
    (hme : 0 < mean_error) (h12 : m1 ≤ m2) :
    build_suspicion_score mean_error m1 high_error_ratio ≤
      build_suspicion_score mean_error m2 high_error_ratio := by
  have hd : (0:ℚ) < mean_error + 1/1000000 := by linarith
  have hmax : max (min ((m1 / (mean_error + 1/1000000) - 1) / 30) (3/10)) 0 ≤
      max (min ((m2 / (mean_error + 1/1000000) - 1) / 30) (3/10)) 0 := by
    gcongr
  unfold build_suspicion_score
  simp only [if_pos hme]
  split_ifs <;> apply min_le_min _ le_rfl <;> linarith

/-- Witness for C9 at mean_error = 1, max_error 3 ≤ 7, high_error_ratio =
1/100. -/
theorem ela_score_monotone_in_max_error_witness :
    build_suspicion_score 1 3 (1/100) ≤ build_suspicion_score 1 7 (1/100) :=
  ela_score_monotone_in_max_error 1 3 7 (1/100) (by norm_num) (by norm_num)

/-- C4: after the hash of an image is inserted into the store (a fresh
filename, so `add_to_db` really inserts), a second `check_duplicate` on the
same image bytes — hence the same computed hash — reports a duplicate with
the payload of a stored entry whose hash equals the query hash: the squared
distance between query vector and that stored vector is 0, the Hamming
distance is 0, which is at or below any non-negative configured
threshold. -/
theorem check_duplicate_after_add_reports_distance_zero
    (threshold : ℤ) (store : QdrantStore) (filename : String) (ph : Nat)
    (metadata : List (String × String)) (newId : String)
    (ht : 0 ≤ threshold) (hwf : WFStore store) (hb : ph < 2^64)
    (hfresh : store.find? (fun p => p.payload.filename = filename) = none) :
    ∃ p : QdrantPoint,
      nearestPoint (add_to_db store filename ph metadata newId).2
          (phash_to_vector ph) = some p ∧
      sqDist p.vector (phash_to_vector ph) = 0 ∧
      p.payload.phash = ph ∧
      hammingDist p.payload.phash ph = 0 ∧
      check_duplicate threshold (add_to_db store filename ph metadata newId).2
          ph =
        ((true, some p.payload),
          (add_to_db store filename ph metadata newId).2) := by
  have hadd : (add_to_db store filename ph metadata newId).2 =
      store ++ [{ id := newId, vector := phash_to_vector ph,
                  payload := { filename := filename, phash := ph,
                               metadata := metadata } }] := by
    unfold add_to_db
    rw [hfresh]
  set npt : QdrantPoint :=
    { id := newId, vector := phash_to_vector ph,
      payload := { filename := filename, phash := ph,
                   metadata := metadata } } with hnpt
  have hmem : npt ∈ (add_to_db store filename ph metadata newId).2 := by
    rw [hadd]
    exact List.mem_append_right _ (List.mem_singleton.mpr rfl)
  obtain ⟨p, hnp⟩ := nearestPoint_of_mem (v := phash_to_vector ph) hmem
  have hspec := nearestPoint_spec hnp
  have hwf' : WFStore (add_to_db store filename ph metadata newId).2 := by
    rw [hadd]
    exact WFStore_append hwf hb rfl
  have hd0 : sqDist p.vector (phash_to_vector ph) = 0 := by
    have hle := hspec.2 npt hmem
    rw [hnpt] at hle
    simp only at hle
    rw [sqDist_self] at hle
    exact le_antisymm hle (sqDist_nonneg _ _)
  have hvec : p.vector = phash_to_vector p.payload.phash := (hwf' p hspec.1).2
  have hpb : p.payload.phash < 2^64 := (hwf' p hspec.1).1
  have hveq : p.vector = phash_to_vector ph := by
    apply eq_of_sqDist_eq_zero _ hd0
    rw [hvec, phash_to_vector_length, phash_to_vector_length]
  have hpph : p.payload.phash = ph := by
    apply phash_to_vector_inj hpb hb
    rw [← hvec, hveq]
  refine ⟨p, hnp, hd0, hpph, ?_, ?_⟩
  · rw [hpph]; exact hammingDist_self ph
  · unfold check_duplicate
    simp only [hnp]
    rw [hd0]
    rw [if_pos (by simpa using ht)]

/-- Witness for C4: empty store, hash 3, threshold 10. -/
theorem check_duplicate_after_add_witness :
    ∃ p : QdrantPoint,
      nearestPoint (add_to_db [] "a.jpg" 3 [] "id1").2
          (phash_to_vector 3) = some p ∧
      sqDist p.vector (phash_to_vector 3) = 0 ∧
      p.payload.phash = 3 ∧
      hammingDist p.payload.phash 3 = 0 ∧
      check_duplicate 10 (add_to_db [] "a.jpg" 3 [] "id1").2 3 =
        ((true, some p.payload), (add_to_db [] "a.jpg" 3 [] "id1").2) :=
  check_duplicate_after_add_reports_distance_zero 10 [] "a.jpg" 3 [] "id1"
    (by norm_num) (fun p hp => absurd hp (List.not_mem_nil p))
    (by norm_num) rfl

/-- C5: the squared Euclidean distance between the bit-vector embeddings of
two 64-bit hashes equals their Hamming distance; and on a store whose points
embed 64-bit hashes, `check_duplicate` at the default threshold declares a
duplicate exactly when some stored hash — equivalently the nearest one — is
at Hamming distance at most 10 from the query hash. -/
theorem sq_euclid_matches_hamming_duplicate_iff :
    (∀ h1 h2 : Nat,
      sqDist (phash_to_vector h1) (phash_to_vector h2) =
        (hammingDist h1 h2 : ℚ)) ∧
    (∀ (store : QdrantStore) (ph : Nat), WFStore store →
      ((check_duplicate default_threshold store ph).1.1 = true ↔
        ∃ p ∈ store, hammingDist p.payload.phash ph ≤ 10)) := by
  constructor
  · exact sqDist_phash_eq_hamming
  · intro store ph hwf
    constructor
    · intro htrue
      cases hnp : nearestPoint store (phash_to_vector ph) with
      | none =>
        unfold check_duplicate at htrue
        simp only [hnp] at htrue
        cases htrue
      | some top =>
        have hspec := nearestPoint_spec hnp
        have hdist : sqDist top.vector (phash_to_vector ph) =
            (hammingDist top.payload.phash ph : ℚ) := by
          rw [(hwf top hspec.1).2]
          exact sqDist_phash_eq_hamming _ _
        unfold check_duplicate at htrue
        simp only [hnp] at htrue
        rw [hdist, round_natCast] at htrue
        by_cases hle : (hammingDist top.payload.phash ph : ℤ) ≤
            default_threshold
        · refine ⟨top, hspec.1, ?_⟩
          have : (hammingDist top.payload.phash ph : ℤ) ≤ 10 := hle
          exact_mod_cast this
        · rw [if_neg hle] at htrue
          cases htrue
    · rintro ⟨p, hp, hham⟩
      obtain ⟨top, hnp⟩ := nearestPoint_of_mem (v := phash_to_vector ph) hp
      have hspec := nearestPoint_spec hnp
      have hdist : sqDist top.vector (phash_to_vector ph) =
          (hammingDist top.payload.phash ph : ℚ) := by
        rw [(hwf top hspec.1).2]
        exact sqDist_phash_eq_hamming _ _
      have hdp : sqDist p.vector (phash_to_vector ph) =
          (hammingDist p.payload.phash ph : ℚ) := by
        rw [(hwf p hp).2]
        exact sqDist_phash_eq_hamming _ _
      have hle : (hammingDist top.payload.phash ph : ℚ) ≤
          (hammingDist p.payload.phash ph : ℚ) := by
        rw [← hdist, ← hdp]
        exact hspec.2 p hp
      have hle10 : (hammingDist top.payload.phash ph : ℤ) ≤
          default_threshold := by
        have h1 : hammingDist top.payload.phash ph ≤
            hammingDist p.payload.phash ph := by exact_mod_cast hle
        have h2 : hammingDist top.payload.phash ph ≤ 10 := le_trans h1 hham
        unfold default_threshold
        exact_mod_cast h2
      unfold check_duplicate
      simp only [hnp]
      rw [hdist, round_natCast, if_pos hle10]

/-- Witness for C5: the distance identity at hashes 3 and 5, and the
duplicate criterion on a one-point store holding hash 5, queried with
hash 3 (Hamming distance 1). -/
theorem sq_euclid_matches_hamming_witness :
    sqDist (phash_to_vector 3) (phash_to_vector 5) = (hammingDist 3 5 : ℚ) ∧
    ((check_duplicate default_threshold
        [{ id := "p1", vector := phash_to_vector 5,
           payload := { filename := "f.jpg", phash := 5, metadata := [] } }]
        3).1.1 = true ↔
      ∃ p ∈ [({ id := "p1", vector := phash_to_vector 5,
                payload := { filename := "f.jpg", phash := 5,
                             metadata := [] } } : QdrantPoint)],
        hammingDist p.payload.phash 3 ≤ 10) :=
  ⟨sq_euclid_matches_hamming_duplicate_iff.1 3 5,
    sq_euclid_matches_hamming_duplicate_iff.2 _ 3
      (by
        intro p hp
        rcases List.mem_singleton.mp hp with rfl
        exact ⟨by norm_num, rfl⟩)⟩

/-- C7 counterexample: `check_duplicate` itself inserts nothing.  On the
empty store with hash 3 it reports no duplicate, yet the store it hands back
is still empty — the new hash was not stored by the check. -/
theorem check_duplicate_no_insert_counterexample :
    (check_duplicate 10 [] 3).1.1 = false ∧
      (check_duplicate 10 [] 3).2 = ([] : QdrantStore) :=
  ⟨rfl, rfl⟩

/-- C7 amended: `check_duplicate` performs no write; the insertion happens in
the separate `add_to_db`, which the module's usage flow calls after a
non-duplicate check.  When the check reports no duplicate and the filename is
not yet stored, the flow's final store is the old store extended with the new
hash vector and metadata. -/
theorem check_then_add_stores_hash_after_non_duplicate
    (threshold : ℤ) (store : QdrantStore) (filename : String) (ph : Nat)
    (metadata : List (String × String)) (newId : String)
    (hcheck : (check_duplicate threshold store ph).1.1 = false)
    (hfresh : store.find? (fun p => p.payload.filename = filename) = none) :
    check_then_add threshold store filename ph metadata newId =
      store ++ [{ id := newId, vector := phash_to_vector ph,
                  payload := { filename := filename, phash := ph,
                               metadata := metadata } }] := by
  unfold check_then_add
  simp only [hcheck, Bool.false_eq_true, if_false, check_duplicate_store_eq]
  unfold add_to_db
  rw [hfresh]

/-- Witness for C7's amended statement: empty store, hash 3. -/
theorem check_then_add_stores_hash_witness :
    check_then_add 10 [] "a.jpg" 3 [] "id1" =
      [{ id := "id1", vector := phash_to_vector 3,
         payload := { filename := "a.jpg", phash := 3, metadata := [] } }] :=
  check_then_add_stores_hash_after_non_duplicate 10 [] "a.jpg" 3 [] "id1"
    rfl rfl

/-! ### Pipeline order (C6) -/

/-- C6 counterexample: the pipeline endpoints do not read the current phase,
so an out-of-order call sequence reverts `pipeline_phase` and `status`:
deploy then analyze takes a fresh listing to phase 5 and back down to
phase 2. -/
theorem pipeline_phase_reverts_counterexample :
    run_pipeline [.deploy] initial_pipeline =
      { pipeline_phase := 5, status := "AUCTION_ACTIVE" } ∧
    run_pipeline [.deploy, .analyze] initial_pipeline =
      { pipeline_phase := 2, status := "AUTHENTICATED" } ∧
    ¬ (run_pipeline [.deploy] initial_pipeline).pipeline_phase ≤
        (run_pipeline [.deploy, .analyze] initial_pipeline).pipeline_phase :=
  ⟨rfl, rfl, by decide⟩

/-- C6 amended: each pipeline endpoint writes its fixed phase/status pair
whatever the current state; along the documented order analyze → estimate →
generate → deploy from a fresh listing, `pipeline_phase` advances strictly
1→2→3→4→5 and `status` runs UPLOADED → AUTHENTICATED → PRICED → POSTED →
AUCTION_ACTIVE with no revert.  Out-of-order call sequences can revert both
fields. -/
theorem pipeline_advances_in_documented_order :
    (∀ st,
      apply_endpoint .analyze st =
        { pipeline_phase := 2, status := "AUTHENTICATED" } ∧
      apply_endpoint .estimate st =
        { pipeline_phase := 3, status := "PRICED" } ∧
      apply_endpoint .generate st =
        { pipeline_phase := 4, status := "POSTED" } ∧
      apply_endpoint .deploy st =
        { pipeline_phase := 5, status := "AUCTION_ACTIVE" }) ∧
    (pipeline_trace canonical_order initial_pipeline).map
        (fun s => s.pipeline_phase) = [1, 2, 3, 4, 5] ∧
    (pipeline_trace canonical_order initial_pipeline).map
        (fun s => s.status) =
      ["UPLOADED", "AUTHENTICATED", "PRICED", "POSTED", "AUCTION_ACTIVE"] ∧
    List.Chain' (· < ·)
      ((pipeline_trace canonical_order initial_pipeline).map
        (fun s => s.pipeline_phase)) :=
  ⟨fun _ => ⟨rfl, rfl, rfl, rfl⟩, rfl, rfl, by
    show List.Chain' (· < ·) [1, 2, 3, 4, 5]
    norm_num [List.chain'_cons]⟩

/-! ### Sealed bids (C1) -/

theorem dedup_length_append_singleton (xs : List String) (u : String) :
    (xs ++ [u]).dedup.length =
      if u ∈ xs then xs.dedup.length else xs.dedup.length + 1 := by
  classical
  rw [← List.card_toFinset, ← List.card_toFinset, List.toFinset_append]
  have h1 : ([u] : List String).toFinset = {u} := by simp
  rw [h1]
  have h2 : xs.toFinset ∪ {u} = insert u xs.toFinset := by
    ext x
    simp [or_comm]
  rw [h2]
  by_cases hu : u ∈ xs
  · rw [if_pos hu, Finset.insert_eq_self.mpr (List.mem_toFinset.mpr hu)]
  · rw [if_neg hu,
      Finset.card_insert_of_not_mem (fun hc => hu (List.mem_toFinset.mp hc))]

theorem updateFirst_participants_count (lid : String) (n : Nat) :
    ∀ ls : List BidListing,
      (ls.map (fun l => l.listing_id)).Nodup →
      ∀ l' ∈ updateFirst (fun l => l.listing_id = lid)
          (fun l => { l with participants_count := n }) ls,
        l'.listing_id = lid → l'.participants_count = n := by
  intro ls
  induction ls with
  | nil =>
    intro _ l' h
    cases h
  | cons x xs ih =>
    intro hnodup l' hl' hid
    simp only [List.map_cons, List.nodup_cons] at hnodup
    unfold updateFirst at hl'
    by_cases hx : x.listing_id = lid
    · rw [if_pos (by simp [hx])] at hl'
      rcases List.mem_cons.mp hl' with rfl | hmem
      · rfl
      · exfalso
        apply hnodup.1
        rw [hx, ← hid]
        exact List.mem_map_of_mem _ hmem
    · rw [if_neg (by simp [hx])] at hl'
      rcases List.mem_cons.mp hl' with rfl | hmem
      · exact absurd hid hx
      · exact ih hnodup.2 l' hmem hid

/-- C1: on a listing in status AUCTION_ACTIVE with starting price s, a bid
below s is rejected with HTTP 400 and the state (bids included) is
unchanged; a positive bid at or above s is accepted, the sealed bid document
is appended, and the listing's `participants_count` is set to the number of
distinct bidder user_ids holding bids on that listing — which stays the same
when the bidder had already bid and grows by exactly one otherwise. -/
theorem place_bid_rejects_below_and_counts_distinct
    (st : BidState) (lid u : String) (a s : ℚ) (now : Nat) (l : BidListing)
    (hfind : st.listings.find?
        (fun x => x.listing_id = lid ∧ x.status = "AUCTION_ACTIVE") = some l)
    (hsp : l.starting_price = some s)
    (huniq : (st.listings.map (fun x => x.listing_id)).Nodup) :
    (a < s → place_bid st lid u (some a) now = (.httpError 400, st)) ∧
    (0 < a → s ≤ a →
      (place_bid st lid u (some a) now).1 =
        .ok ((distinct_bidders (st.bids ++
          [{ listing_id := lid, user_id := u, amount := a,
             created_at := now }]) lid).length) ∧
      (place_bid st lid u (some a) now).2.bids =
        st.bids ++ [{ listing_id := lid, user_id := u, amount := a,
                      created_at := now }] ∧
      (∀ l' ∈ (place_bid st lid u (some a) now).2.listings,
        l'.listing_id = lid →
          l'.participants_count =
            (distinct_bidders (st.bids ++
              [{ listing_id := lid, user_id := u, amount := a,
                 created_at := now }]) lid).length) ∧
      (u ∈ (st.bids.filter (fun b => b.listing_id = lid)).map
          (fun b => b.user_id) →
        (distinct_bidders (st.bids ++
          [{ listing_id := lid, user_id := u, amount := a,
             created_at := now }]) lid).length =
          (distinct_bidders st.bids lid).length) ∧
      (u ∉ (st.bids.filter (fun b => b.listing_id = lid)).map
          (fun b => b.user_id) →
        (distinct_bidders (st.bids ++
          [{ listing_id := lid, user_id := u, amount := a,
             created_at := now }]) lid).length =
          (distinct_bidders st.bids lid).length + 1)) := by
  have hkey : distinct_bidders (st.bids ++
      [{ listing_id := lid, user_id := u, amount := a,
         created_at := now }]) lid =
      ((st.bids.filter (fun b => b.listing_id = lid)).map
        (fun b => b.user_id) ++ [u]).dedup := by
    unfold distinct_bidders
    rw [List.filter_append, List.map_append]
    simp
  constructor
  · intro hlt
    unfold place_bid
    dsimp only
    by_cases ha : a ≤ 0
    · rw [if_pos ha]
    · rw [if_neg ha, hfind]
      dsimp only
      rw [hsp, Option.getD_some, if_pos hlt]
  · intro ha0 hsa
    have ha : ¬ a ≤ 0 := not_le.mpr ha0
    unfold place_bid
    dsimp only
    rw [if_neg ha, hfind]
    dsimp only
    rw [hsp, Option.getD_some, if_neg (not_lt.mpr hsa)]
    refine ⟨rfl, rfl, ?_, ?_, ?_⟩
    · exact updateFirst_participants_count lid _ st.listings huniq
    · intro hu
      rw [hkey, dedup_length_append_singleton, if_pos hu]
      rfl
    · intro hu
      rw [hkey, dedup_length_append_singleton, if_neg hu]
      rfl

/-- Witness for C1: one AUCTION_ACTIVE listing with starting price 10, an
accepted first bid of 12 yields participants count 1. -/
theorem place_bid_witness :
    (place_bid
      { listings := [{ listing_id := "L1", status := "AUCTION_ACTIVE",
                       starting_price := some 10, participants_count := 0 }],
        bids := [] }
      "L1" "alice" (some 12) 0).1 = .ok 1 := by
  have h := (place_bid_rejects_below_and_counts_distinct
    { listings := [{ listing_id := "L1", status := "AUCTION_ACTIVE",
                     starting_price := some 10, participants_count := 0 }],
      bids := [] }
    "L1" "alice" 12 10 0
    { listing_id := "L1", status := "AUCTION_ACTIVE",
      starting_price := some 10, participants_count := 0 }
    rfl rfl (by simp)).2 (by norm_num) (by norm_num)
  exact h.1.trans rfl

/-! ### Document redaction lemmas (C2, C10) -/

theorem hasKey_popKey_self (k : String) (d : Doc) :
    hasKey k (popKey k d) = false := by
  apply List.any_eq_false.mpr
  intro p hp
  have hq := (List.mem_filter.mp hp).2
  simp only [decide_not, Bool.not_eq_eq_eq_not, Bool.not_true,
    decide_eq_false_iff_not] at hq
  simpa using hq

theorem hasKey_popKey_of_false (k k' : String) (d : Doc)
    (h : hasKey k d = false) : hasKey k (popKey k' d) = false := by
  apply List.any_eq_false.mpr
  intro p hp
  exact List.any_eq_false.mp h p (List.mem_of_mem_filter hp)

theorem hasKey_popKeys_of_false (ks : List String) (k : String) (d : Doc)
    (h : hasKey k d = false) : hasKey k (popKeys ks d) = false := by
  induction ks generalizing d with
  | nil => exact h
  | cons k' rest ih =>
    exact ih (popKey k' d) (hasKey_popKey_of_false k k' d h)

theorem hasKey_popKeys_of_mem (ks : List String) (k : String) (hk : k ∈ ks)
    (d : Doc) : hasKey k (popKeys ks d) = false := by
  induction ks generalizing d with
  | nil => cases hk
  | cons k' rest ih =>
    rcases List.mem_cons.mp hk with rfl | hk'
    · exact hasKey_popKeys_of_false rest k (popKey k d)
        (hasKey_popKey_self k d)
    · exact ih hk' (popKey k' d)

theorem hasKey_of_getKey_some {k : String} {d : Doc} {v : BVal}
    (h : getKey k d = some v) : hasKey k d = true := by
  unfold getKey at h
  cases hf : d.find? (fun p => p.1 = k) with
  | none => rw [hf] at h; cases h
  | some p =>
    have h1 := List.find?_some hf
    have h2 := List.mem_of_find?_eq_some hf
    unfold hasKey
    exact List.any_eq_true.mpr ⟨p, h2, h1⟩

theorem hasKey_map_overwrite (k k' : String) (v : BVal) (d : Doc) :
    hasKey k (d.map (fun p => if p.1 = k' then (k', v) else p)) =
      hasKey k d := by
  induction d with
  | nil => rfl
  | cons p t ih =>
    unfold hasKey at ih ⊢
    rw [List.map_cons, List.any_cons, List.any_cons, ih]
    by_cases hp : p.1 = k'
    · rw [if_pos hp, ← hp]
    · rw [if_neg hp]

theorem hasKey_strip_image_data (k : String) (d : Doc) :
    hasKey k (strip_image_data d) = hasKey k d := by
  unfold strip_image_data
  cases hg : getKey "images" d with
  | none => rfl
  | some v =>
    cases v with
    | varr imgs =>
      dsimp only
      have himg : hasKey "images" d = true := hasKey_of_getKey_some hg
      unfold setKeyD
      rw [if_pos himg]
      exact hasKey_map_overwrite k "images" _ d
    | vnull => rfl
    | vbool b => rfl
    | vnum q => rfl
    | vstr s => rfl
    | vbytes bs => rfl
    | vdoc f => rfl

theorem getKey_map_overwrite (k : String) (v : BVal) (d : Doc)
    (h : hasKey k d = true) :
    getKey k (d.map (fun p => if p.1 = k then (k, v) else p)) = some v := by
  induction d with
  | nil => simp [hasKey] at h
  | cons p t ih =>
    by_cases hp : p.1 = k
    · simp [getKey, List.find?_cons, hp]
    · have ht : hasKey k t = true := by
        simpa [hasKey, List.any_cons, hp] using h
      simpa [getKey, List.find?_cons, hp] using ih ht

theorem getKey_strip_image_data (d : Doc) (imgs : List BVal)
    (hg : getKey "images" d = some (.varr imgs)) :
    getKey "images" (strip_image_data d) =
      some (.varr (imgs.map strip_image_record)) := by
  unfold strip_image_data
  rw [hg]
  dsimp only
  have himg : hasKey "images" d = true := hasKey_of_getKey_some hg
  unfold setKeyD
  rw [if_pos himg]
  exact getKey_map_overwrite "images" _ d himg

theorem no_image_data_strip (d : Doc) : no_image_data (strip_image_data d) := by
  intro imgs himgs img hmem fields hfield
  cases hg : getKey "images" d with
  | none =>
    have hd : strip_image_data d = d := by
      unfold strip_image_data
      rw [hg]
    rw [hd, hg] at himgs
    cases himgs
  | some v =>
    cases v with
    | varr l =>
      rw [getKey_strip_image_data d l hg] at himgs
      injection himgs with h1
      injection h1 with h2
      subst h2
      rcases List.mem_map.mp hmem with ⟨x, hx, rfl⟩
      cases x with
      | vdoc f =>
        unfold strip_image_record at hfield
        injection hfield with h3
        rw [← h3]
        exact hasKey_popKey_self "data" f
      | vnull => exact BVal.noConfusion hfield
      | vbool b => exact BVal.noConfusion hfield
      | vnum q => exact BVal.noConfusion hfield
      | vstr s => exact BVal.noConfusion hfield
      | vbytes bs => exact BVal.noConfusion hfield
      | varr l2 => exact BVal.noConfusion hfield
    | vnull =>
      have hd : strip_image_data d = d := by
        unfold strip_image_data
        rw [hg]
      rw [hd, hg] at himgs
      injection himgs with h1
      exact BVal.noConfusion h1
    | vbool b =>
      have hd : strip_image_data d = d := by
        unfold strip_image_data
        rw [hg]
      rw [hd, hg] at himgs
      injection himgs with h1
      exact BVal.noConfusion h1
    | vnum q =>
      have hd : strip_image_data d = d := by
        unfold strip_image_data
        rw [hg]
      rw [hd, hg] at himgs
      injection himgs with h1
      exact BVal.noConfusion h1
    | vstr s =>
      have hd : strip_image_data d = d := by
        unfold strip_image_data
        rw [hg]
      rw [hd, hg] at himgs
      injection himgs with h1
      exact BVal.noConfusion h1
    | vbytes bs =>
      have hd : strip_image_data d = d := by
        unfold strip_image_data
        rw [hg]
      rw [hd, hg] at himgs
      injection himgs with h1
      exact BVal.noConfusion h1
    | vdoc f =>
      have hd : strip_image_data d = d := by
        unfold strip_image_data
        rw [hg]
      rw [hd, hg] at himgs
      injection himgs with h1
      exact BVal.noConfusion h1

theorem getKey_popKey_of_ne (k k' : String) (h : ¬ k = k') (d : Doc) :
    getKey k (popKey k' d) = getKey k d := by
  induction d with
  | nil => rfl
  | cons p t ih =>
    unfold popKey getKey at ih ⊢
    rw [List.filter_cons]
    by_cases hp : p.1 = k'
    · have hpk : ¬ p.1 = k := fun hc => h (hc.symm.trans hp)
      rw [if_neg (by simp [hp])]
      rw [ih, List.find?_cons]
      simp [hpk]
    · rw [if_pos (by simp [hp])]
      rw [List.find?_cons, List.find?_cons]
      by_cases hk : p.1 = k
      · simp [hk]
      · simpa [hk] using ih

theorem no_image_data_popKey (k' : String) (hne : ¬ "images" = k') (d : Doc)
    (h : no_image_data d) : no_image_data (popKey k' d) := by
  intro imgs himgs img hmem fields hfield
  rw [getKey_popKey_of_ne "images" k' hne d] at himgs
  exact h imgs himgs img hmem fields hfield

theorem no_image_data_popKeys (ks : List String) (hks : ¬ "images" ∈ ks)
    (d : Doc) (h : no_image_data d) : no_image_data (popKeys ks d) := by
  induction ks generalizing d with
  | nil => exact h
  | cons k' rest ih =>
    have h1 : ¬ "images" = k' := fun hc => hks (hc ▸ List.mem_cons_self _ _)
    have h2 : ¬ "images" ∈ rest := fun hc => hks (List.mem_cons_of_mem _ hc)
    exact ih h2 (popKey k' d) (no_image_data_popKey k' h1 d h)

/-- C2: for any stored listing document, the buyer views of the listing read
endpoints — GET /api/listings/ (list items), GET /api/listings/{id}, and
GET /api/listing/{id} — contain none of the keys `price_estimation`,
`ai_analysis`, `seller_id`, `blockchain`. -/
theorem buyer_views_redact_sensitive_fields
    (d : Doc) (docs : List Doc) (k : String)
    (hk : k ∈ ["price_estimation", "ai_analysis", "seller_id",
               "blockchain"]) :
    hasKey k (get_listing_buyer_view d) = false ∧
    hasKey k (fetch_listing_buyer_view d) = false ∧
    ∀ v ∈ get_listings_for_buyer docs, hasKey k v = false := by
  have hk5 : k ∈ buyer_detail_pops := by
    rcases (by simpa using hk :
        k = "price_estimation" ∨ k = "ai_analysis" ∨ k = "seller_id" ∨
          k = "blockchain") with rfl | rfl | rfl | rfl <;>
      simp [buyer_detail_pops]
  refine ⟨?_, ?_, ?_⟩
  · exact hasKey_popKeys_of_mem _ _ hk5 _
  · exact hasKey_popKeys_of_mem _ _ (List.mem_append_left _ hk5) _
  · intro v hv
    rcases List.mem_map.mp hv with ⟨d0, _, rfl⟩
    rw [hasKey_strip_image_data]
    exact hasKey_popKeys_of_mem _ _ (List.mem_append_left _ hk5) _

/-- Witness for C2 at a concrete document holding every sensitive key and a
one-document collection. -/
theorem buyer_views_redact_witness :
    hasKey "seller_id" (get_listing_buyer_view
      [("seller_id", .vstr "s1"), ("price_estimation", .vnum 10),
       ("ai_analysis", .vstr "ok"), ("blockchain", .vnull),
       ("title", .vstr "t")]) = false ∧
    hasKey "seller_id" (fetch_listing_buyer_view
      [("seller_id", .vstr "s1"), ("price_estimation", .vnum 10),
       ("ai_analysis", .vstr "ok"), ("blockchain", .vnull),
       ("title", .vstr "t")]) = false ∧
    ∀ v ∈ get_listings_for_buyer
      [[("seller_id", .vstr "s1"), ("status", .vstr "AUCTION_ACTIVE")]],
      hasKey "seller_id" v = false :=
  buyer_views_redact_sensitive_fields
    [("seller_id", .vstr "s1"), ("price_estimation", .vnum 10),
     ("ai_analysis", .vstr "ok"), ("blockchain", .vnull),
     ("title", .vstr "t")]
    [[("seller_id", .vstr "s1"), ("status", .vstr "AUCTION_ACTIVE")]]
    "seller_id" (by simp)

/-- C10: every listing returned by the listing read endpoints — the common
detail view of GET /api/listings/{id} and GET /api/listing/{id}, their buyer
variants, and the list views GET /api/listings/ (buyer and seller branches,
the latter also serving GET /api/listings/me) — has the inline binary
payload removed: no image record of the response carries the `data` key. -/
theorem listing_endpoints_strip_inline_image_data
    (d : Doc) (docs : List Doc) (seller : String) :
    no_image_data (get_listing_by_id_view true d) ∧
    no_image_data (get_listing_buyer_view d) ∧
    no_image_data (fetch_listing_buyer_view d) ∧
    (∀ v ∈ get_listings_for_buyer docs, no_image_data v) ∧
    (∀ v ∈ get_listings_by_seller docs seller, no_image_data v) := by
  have hbase : no_image_data (get_listing_by_id_view true d) := by
    unfold get_listing_by_id_view
    exact no_image_data_strip _
  refine ⟨hbase, ?_, ?_, ?_, ?_⟩
  · exact no_image_data_popKeys _ (by decide) _ hbase
  · exact no_image_data_popKeys _ (by decide) _ hbase
  · intro v hv
    rcases List.mem_map.mp hv with ⟨d0, _, rfl⟩
    exact no_image_data_strip _
  · intro v hv
    rcases List.mem_map.mp hv with ⟨d0, _, rfl⟩
    exact no_image_data_strip _

end EncherSceller
